import Mathlib

/-
  Verification development for the imapfetch incremental mail-archiving engine
  (src/imapfetch.py).

  Byte strings are modelled as `List Nat`.  The IMAP server's partial body
  fetch `BODY[]<offset.size>` is modelled as returning the slice
  `(m.drop offset).take size` of the message bytes `m`, whose length is the
  literal byte count `{n}` parsed from the response wrapper.  The dbm index is
  an association list with newest-entry-first lookup, and the Maildir archive
  is a list of stored (body, namespace) pairs whose key is the insertion
  position.  The Blake2b digest is an abstract parameter `H` of the engine.
-/

set_option maxRecDepth 4000

-- ---------------------------------------------------------------------------
-- byte-string utilities

/-- Does `pat` occur as a contiguous subsequence of the byte string?
Models Python's `pat in bytes`. -/
def hasSub (pat : List Nat) : List Nat → Bool
  | [] => pat.isEmpty
  | a :: t => pat.isPrefixOf (a :: t) || hasSub pat t

/-- The header-terminator test of the main loop:
`b"\r\n\r\n" in message or b"\n\n" in message` (line 146). -/
def hasTerm (b : List Nat) : Bool :=
  hasSub [13, 10, 13, 10] b || hasSub [10, 10] b

/-- Length of the prefix of `b` that precedes the first occurrence of a
header-terminator sequence (`\r\n\r\n` or `\n\n`); `b.length` if none occurs.
This is the header/body split position used by `email.message_from_bytes`. -/
def headerEnd : List Nat → Nat
  | [] => 0
  | a :: t =>
    if [13, 10, 13, 10].isPrefixOf (a :: t) || [10, 10].isPrefixOf (a :: t) then 0
    else 1 + headerEnd t

/-- The header-only part of a byte string: what remains relevant after
`e.set_payload("")` clears the body (lines 150-151).  The digest of a message
is a function of exactly these bytes. -/
def headerPart (b : List Nat) : List Nat := b.take (headerEnd b)

/-- Concatenation of a list of byte chunks. -/
def flat : List (List Nat) → List Nat
  | [] => []
  | c :: t => c ++ flat t

-- ---------------------------------------------------------------------------
-- decimal rendering/parsing of UIDs (dbm stores the watermark as the uid's
-- decimal byte string; `int(index.get(folder, 0))` parses it back)

/-- Little-endian decimal digits of `n`; the first argument is structural
fuel (any fuel `≥ n` gives the digits). -/
def natDigitsRevAux : Nat → Nat → List Nat
  | _, 0 => []
  | 0, _ + 1 => []
  | fuel + 1, n + 1 => ((n + 1) % 10) :: natDigitsRevAux fuel ((n + 1) / 10)

/-- Little-endian decimal digits of `n`. -/
def natDigitsRev (n : Nat) : List Nat := natDigitsRevAux n n

/-- The decimal byte string of `n`, e.g. `natBytes 42 = [52, 50]`. -/
def natBytes (n : Nat) : List Nat :=
  if n = 0 then [48] else (natDigitsRev n).reverse.map (fun d => d + 48)

/-- Python `int()` on a decimal byte string. -/
def bytesToNat (b : List Nat) : Nat :=
  b.foldl (fun acc d => acc * 10 + (d - 48)) 0

/-- Value of a little-endian digit list. -/
def digitsVal : List Nat → Nat
  | [] => 0
  | d :: ds => d + 10 * digitsVal ds

-- ---------------------------------------------------------------------------
-- Mailserver (src/imapfetch.py lines 27-73)

/-- One partial fetch performed by `Mailserver.partials`: the requested
offset, the requested chunk size, and the returned (yielded) data. -/
structure Fetch where
  offset : Nat
  size : Nat
  data : List Nat
deriving DecidableEq, Repr

/-- The loop body of `Mailserver.partials` (lines 64-73).  Each iteration
fetches `BODY[]<offset.chunksize>`, yields the returned data, stops if the
returned byte count is below the requested size, and otherwise executes
`chunksize = nextchunk; offset += chunksize` (note the order: the offset
advances by the NEW chunk size).  Structural fuel bounds the iteration
count; `m.length + 2` always suffices when the chunk sizes are positive. -/
def partialsGo (m : List Nat) (nextchunk : Nat) : Nat → Nat → Nat → List Fetch
  | 0, _, _ => []
  | fuel + 1, offset, chunksize =>
    if ((m.drop offset).take chunksize).length < chunksize then
      [⟨offset, chunksize, (m.drop offset).take chunksize⟩]
    else
      ⟨offset, chunksize, (m.drop offset).take chunksize⟩ ::
        partialsGo m nextchunk fuel (offset + nextchunk) nextchunk

namespace Mailserver

/-- 64 kB first chunk (line 56). -/
def FIRSTCHUNK : Nat := 64 * 1024

/-- 1 MB later chunks (line 58). -/
def NEXTCHUNK : Nat := 1024 * 1024

/-- `Mailserver.partials` (lines 61-73): the partial-fetch generator for one
message `m`, recorded as the finite list of fetches it performs (each fetch's
`data` is yielded in order). -/
def partials (m : List Nat) (firstchunk nextchunk : Nat) : List Fetch :=
  partialsGo m nextchunk (m.length + 2) 0 firstchunk

/-- `Mailserver.mails` (lines 47-52): given the uid list returned by
`UID SEARCH uidstart:*`, yield those with `int(uid) > uidstart`. -/
def mails (uids : List Nat) (uidstart : Nat) : List Nat :=
  uids.filter fun u => decide (uidstart < u)

/-- Python's `\s` character class. -/
def isSpaceCh (c : Char) : Bool :=
  c = ' ' || c = '\t' || c = '\n' || c = '\r' || c = '\x0b' || c = '\x0c'

/-- `re.sub(r"^\([^)]+\)\s\".\"\s", "", line)` from `Mailserver.ls`
(line 39): if the line starts with a parenthesized flag list (at least one
non-`)` character), a whitespace character, a quoted single delimiter
character (any character but a newline), and a whitespace character, strip
that prefix; otherwise leave the line unchanged. -/
def lsStrip (s : List Char) : List Char :=
  match s with
  | '(' :: rest =>
    if (rest.takeWhile (fun c => c ≠ ')')).isEmpty then s
    else
      match rest.dropWhile (fun c => c ≠ ')') with
      | ')' :: w1 :: '"' :: d :: '"' :: w2 :: tail =>
        if isSpaceCh w1 && d ≠ '\n' && isSpaceCh w2 then tail else s
      | _ => s
  | _ => s

/-- `Mailserver.ls` (lines 37-39): strip the flags/delimiter prefix from each
raw listing line. -/
def ls (folders : List String) : List String :=
  folders.map fun f => String.mk (lsStrip f.toList)

end Mailserver

/-- The byte chunks yielded by `Mailserver.partials` for message `m`. -/
def chunks (m : List Nat) (f n : Nat) : List (List Nat) :=
  (Mailserver.partials m f n).map Fetch.data

-- ---------------------------------------------------------------------------
-- header accumulation of the main loop (lines 144-147)

/-- `while not (b"\r\n\r\n" in message or b"\n\n" in message): message +=
next(partials)`.  Returns the accumulated buffer and the chunks left in the
generator, or `none` if the generator is exhausted first (an uncaught
`StopIteration`). -/
def readHeaderGo (buf : List Nat) : List (List Nat) → Option (List Nat × List (List Nat))
  | [] => if hasTerm buf then some (buf, []) else none
  | c :: rest' =>
    if hasTerm buf then some (buf, c :: rest')
    else readHeaderGo (buf ++ c) rest'

/-- `message = next(partials)` followed by the terminator-accumulation loop
(lines 145-147). -/
def readHeader : List (List Nat) → Option (List Nat × List (List Nat))
  | [] => none
  | c :: rest => readHeaderGo c rest

/-- Header accumulation applied to the chunks of message `m`. -/
def headerRead (f n : Nat) (m : List Nat) : Option (List Nat × List (List Nat)) :=
  readHeader (chunks m f n)

/-- The digest the engine computes for message `m` (lines 149-152):
parse the accumulated buffer, clear the body, digest the header bytes with
the hash `H` (Blake2b in the source).  `none` when header accumulation
exhausts the generator. -/
def digestOf (H : List Nat → List Nat) (f n : Nat) (m : List Nat) : Option (List Nat) :=
  (headerRead f n m).map fun p => H (headerPart p.1)

/-- The full message bytes the engine assembles for a new message: the
accumulated buffer plus all remaining chunks (lines 159-161), i.e. the
concatenation of everything the generator yields. -/
def assembled (f n : Nat) (m : List Nat) : List Nat := flat (chunks m f n)

-- ---------------------------------------------------------------------------
-- dbm index (dbm.open in Account.__enter__, used in the main loop)

/-- dbm lookup: the most recently written value for a key. -/
def dbmGet : List (List Nat × List Nat) → List Nat → Option (List Nat)
  | [], _ => none
  | (k', v) :: t, k => if k' = k then some v else dbmGet t k

/-- dbm assignment `index[k] = v` (newest entry shadows older ones). -/
def dbmSet (idx : List (List Nat × List Nat)) (k v : List Nat) :
    List (List Nat × List Nat) :=
  (k, v) :: idx

/-- dbm membership test `key in index`. -/
def dbmHas (idx : List (List Nat × List Nat)) (k : List Nat) : Bool :=
  (dbmGet idx k).isSome

/-- `highest = int(index.get(folder, 0))` (line 139). -/
def watermarkOf (idx : List (List Nat × List Nat)) (fB : List Nat) : Nat :=
  match dbmGet idx fB with
  | none => 0
  | some v => bytesToNat v

/-- The value stored under a digest key: `folder + "/" + key` (line 164),
with the Maildir key rendered as its decimal byte string. -/
def dgstVal (fB : List Nat) (key : Nat) : List Nat := fB ++ 47 :: natBytes key

-- ---------------------------------------------------------------------------
-- sync engine (the per-folder loop of `__main__`, lines 138-167)

/-- The mutable state of one account: the dbm index and the Maildir archive
(stored bodies with their namespace; a message's key is its position). -/
structure EngineState where
  index : List (List Nat × List Nat)
  archive : List (List Nat × List Nat)
deriving DecidableEq, Repr

/-- Observable persistence events of the engine, in program order. -/
inductive Event where
  /-- `key = archive.store(message, ...)` completed (line 163). -/
  | store (uid : Nat) (body : List Nat) (key : Nat)
  /-- `index[dgst] = folder + "/" + key` (line 164). -/
  | putDigest (uid : Nat) (dgst : List Nat)
  /-- `index[folder] = uid` (line 167). -/
  | putWatermark (uid : Nat)
  /-- the digest was found, the message was skipped (line 156). -/
  | skipDup (uid : Nat)
deriving DecidableEq, Repr

/-- Result of a (partial) run: `ok = false` means the run died with an
uncaught exception (`StopIteration` from `next(partials)`). -/
structure RunResult where
  ok : Bool
  state : EngineState
  trace : List Event
deriving DecidableEq, Repr

/-- The body of the `for uid in server.mails(...)` loop (lines 142-167) for a
single candidate uid: accumulate header chunks, digest the body-cleared
message, skip when the digest is already indexed, otherwise drain the
generator, store the full message in the archive, record the digest, and
advance the folder watermark when `int(uid) > highest`.  `none` models the
uncaught `StopIteration` when the generator is exhausted before a header
terminator is found.  `processFound` is the part after a successful header
read: `if dgst in index` skip, else drain, store, record, and advance the
watermark when `int(uid) > highest`. -/
def processFound (H : List Nat → List Nat) (fB ns : List Nat) (highest : Nat)
    (st : EngineState) (uid : Nat) (buf : List Nat) (rest : List (List Nat)) :
    EngineState × List Event :=
  if dbmHas st.index (H (headerPart buf)) then (st, [Event.skipDup uid])
  else if highest < uid then
    (⟨dbmSet (dbmSet st.index (H (headerPart buf)) (dgstVal fB st.archive.length))
        fB (natBytes uid),
      st.archive ++ [(buf ++ flat rest, ns)]⟩,
     [Event.store uid (buf ++ flat rest) st.archive.length,
      Event.putDigest uid (H (headerPart buf)),
      Event.putWatermark uid])
  else
    (⟨dbmSet st.index (H (headerPart buf)) (dgstVal fB st.archive.length),
      st.archive ++ [(buf ++ flat rest, ns)]⟩,
     [Event.store uid (buf ++ flat rest) st.archive.length,
      Event.putDigest uid (H (headerPart buf))])

def processUid (H : List Nat → List Nat) (fB ns : List Nat) (highest f n : Nat)
    (msg : Nat → List Nat) (st : EngineState) (uid : Nat) :
    Option (EngineState × List Event) :=
  match headerRead f n (msg uid) with
  | none => none
  | some (buf, rest) => some (processFound H fB ns highest st uid buf rest)

/-- The candidate loop over a uid list.  An uncaught exception aborts the
whole loop: the remaining uids are not processed. -/
def runUids (H : List Nat → List Nat) (fB ns : List Nat) (highest f n : Nat)
    (msg : Nat → List Nat) : List Nat → EngineState → RunResult
  | [], st => ⟨true, st, []⟩
  | uid :: rest, st =>
    match processUid H fB ns highest f n msg st uid with
    | none => ⟨false, st, []⟩
    | some (st2, ev) =>
      ⟨(runUids H fB ns highest f n msg rest st2).ok,
       (runUids H fB ns highest f n msg rest st2).state,
       ev ++ (runUids H fB ns highest f n msg rest st2).trace⟩

/-- One folder pass of `__main__` (lines 138-167): read the stored watermark,
compute the candidate uids starting from it (or from 1 when `incremental` is
false), and run the candidate loop. -/
def runFolder (H : List Nat → List Nat) (incremental : Bool) (fB ns : List Nat)
    (f n : Nat) (msg : Nat → List Nat) (uids : List Nat) (st : EngineState) :
    RunResult :=
  runUids H fB ns (watermarkOf st.index fB) f n msg
    (Mailserver.mails uids (if incremental then watermarkOf st.index fB else 1)) st

/-- The uids of the watermark writes in a trace, in order. -/
def wmUids (t : List Event) : List Nat :=
  t.filterMap fun e =>
    match e with
    | Event.putWatermark u => some u
    | _ => none

/-- Trace checker: every `putDigest u _` is preceded by a `store u _ _`
(`acc` holds the uids whose store already completed). -/
def dedupOrdered (acc : List Nat) : List Event → Bool
  | [] => true
  | Event.store u _ _ :: t => dedupOrdered (u :: acc) t
  | Event.putDigest u _ :: t => acc.contains u && dedupOrdered acc t
  | Event.putWatermark _ :: t => dedupOrdered acc t
  | Event.skipDup _ :: t => dedupOrdered acc t

/-- Trace checker: every `putWatermark u` is preceded by a `store u _ _` and
a `putDigest u _`. -/
def wmOrdered (accS accP : List Nat) : List Event → Bool
  | [] => true
  | Event.store u _ _ :: t => wmOrdered (u :: accS) accP t
  | Event.putDigest u _ :: t => wmOrdered accS (u :: accP) t
  | Event.putWatermark u :: t => accS.contains u && accP.contains u && wmOrdered accS accP t
  | Event.skipDup _ :: t => wmOrdered accS accP t

-- ---------------------------------------------------------------------------
-- concrete scenario data used by counterexamples and witnesses

/-- Remote folder for the C5 scenarios: uid 1 is malformed (one byte, no
header terminator), uid 2 is a well-formed new message. -/
def c5msg : Nat → List Nat := fun u => if u = 1 then [97] else [98, 10, 10]

/-- Remote folder with two well-formed messages, "a\n\n" at uid 1 and
"b\n\n" at uid 2, used by several witnesses. -/
def demoMsg : Nat → List Nat := fun u => if u = 1 then [97, 10, 10] else [98, 10, 10]

-- ---------------------------------------------------------------------------
-- helper lemmas

theorem runUids_nil (H : List Nat → List Nat) (fB ns : List Nat)
    (highest f n : Nat) (msg : Nat → List Nat) (st : EngineState) :
    runUids H fB ns highest f n msg [] st = ⟨true, st, []⟩ := rfl

theorem runUids_cons_none {H : List Nat → List Nat} {fB ns : List Nat}
    {highest f n : Nat} {msg : Nat → List Nat} {uid : Nat} (rest : List Nat)
    {st : EngineState} (h : processUid H fB ns highest f n msg st uid = none) :
    runUids H fB ns highest f n msg (uid :: rest) st = ⟨false, st, []⟩ := by
  unfold runUids
  rw [h]

theorem runUids_cons_some {H : List Nat → List Nat} {fB ns : List Nat}
    {highest f n : Nat} {msg : Nat → List Nat} {uid : Nat} (rest : List Nat)
    {st : EngineState} {st2 : EngineState} {ev : List Event}
    (h : processUid H fB ns highest f n msg st uid = some (st2, ev)) :
    runUids H fB ns highest f n msg (uid :: rest) st =
      ⟨(runUids H fB ns highest f n msg rest st2).ok,
       (runUids H fB ns highest f n msg rest st2).state,
       ev ++ (runUids H fB ns highest f n msg rest st2).trace⟩ := by
  conv_lhs => rw [runUids]
  rw [h]

theorem digitsVal_natDigitsRevAux :
    ∀ fuel n, n ≤ fuel → digitsVal (natDigitsRevAux fuel n) = n := by
  intro fuel
  induction fuel with
  | zero =>
    intro n hn
    have : n = 0 := Nat.le_zero.mp hn
    subst this; rfl
  | succ f ih =>
    intro n hn
    match n with
    | 0 => rfl
    | n + 1 =>
      have hdiv : (n + 1) / 10 < n + 1 := Nat.div_lt_self (Nat.succ_pos n) (by norm_num)
      rw [natDigitsRevAux]
      simp only [digitsVal]
      rw [ih ((n + 1) / 10) (by omega)]
      exact Nat.mod_add_div (n + 1) 10

theorem foldl_digits (ds : List Nat) : ∀ a : Nat,
    ((ds.reverse.map (fun d => d + 48)).foldl (fun acc d => acc * 10 + (d - 48)) a)
      = a * 10 ^ ds.length + digitsVal ds := by
  induction ds with
  | nil => intro a; simp [digitsVal]
  | cons d ds ih =>
    intro a
    simp only [List.reverse_cons, List.map_append, List.foldl_append, List.map_cons,
      List.map_nil, List.foldl_cons, List.foldl_nil, List.length_cons]
    rw [ih a]
    simp only [digitsVal, Nat.add_sub_cancel]
    ring

theorem bytesToNat_natBytes (n : Nat) : bytesToNat (natBytes n) = n := by
  by_cases h : n = 0
  · subst h; rfl
  · unfold natBytes bytesToNat
    rw [if_neg h, foldl_digits]
    simpa [natDigitsRev] using digitsVal_natDigitsRevAux n n le_rfl

theorem dbmGet_set_self (idx : List (List Nat × List Nat)) (k v : List Nat) :
    dbmGet (dbmSet idx k v) k = some v := by
  simp [dbmGet, dbmSet]

theorem dbmGet_set_ne (idx : List (List Nat × List Nat)) (k v k' : List Nat)
    (h : k ≠ k') : dbmGet (dbmSet idx k v) k' = dbmGet idx k' := by
  simp [dbmGet, dbmSet, h]

theorem dbmGet_set_isSome (idx : List (List Nat × List Nat)) (k v k' : List Nat)
    (h : (dbmGet idx k').isSome = true) :
    (dbmGet (dbmSet idx k v) k').isSome = true := by
  by_cases hk : k = k'
  · subst hk; rw [dbmGet_set_self]; rfl
  · rw [dbmGet_set_ne idx k v k' hk]; exact h

theorem readHeaderGo_flat :
    ∀ (rest : List (List Nat)) (buf b : List Nat) (r : List (List Nat)),
    readHeaderGo buf rest = some (b, r) → b ++ flat r = buf ++ flat rest := by
  intro rest
  induction rest with
  | nil =>
    intro buf b r h
    unfold readHeaderGo at h
    split at h
    · injection h with h'; injection h' with h1 h2; subst h1; subst h2; rfl
    · exact absurd h (by simp)
  | cons c rest' ih =>
    intro buf b r h
    unfold readHeaderGo at h
    split at h
    · injection h with h'; injection h' with h1 h2; subst h1; subst h2; rfl
    · rw [ih (buf ++ c) b r h]
      simp [flat]

theorem readHeader_flat (cs : List (List Nat)) (b : List Nat) (r : List (List Nat))
    (h : readHeader cs = some (b, r)) : b ++ flat r = flat cs := by
  match cs with
  | [] => exact absurd h (by simp [readHeader])
  | c :: rest =>
    unfold readHeader at h
    rw [readHeaderGo_flat rest c b r h]
    simp [flat]

theorem partialsGo_short (m : List Nat) (n : Nat) (hn : 1 ≤ n) :
    ∀ fuel offset cs, 1 ≤ cs → 1 ≤ fuel → m.length + 1 ≤ fuel + offset →
    ∃ pre lst, partialsGo m n fuel offset cs = pre ++ [lst] ∧
      lst.data.length < lst.size := by
  intro fuel
  induction fuel with
  | zero => intro _ _ _ h _; omega
  | succ f ih =>
    intro offset cs hcs _ hb
    rw [partialsGo]
    split
    · rename_i hshort
      exact ⟨[], ⟨offset, cs, (m.drop offset).take cs⟩, rfl, hshort⟩
    · rename_i hns
      push_neg at hns
      have hlen : ((m.drop offset).take cs).length = min cs (m.length - offset) := by
        simp [List.length_take, List.length_drop]
      have hcs' : cs ≤ m.length - offset := by
        rw [hlen] at hns
        exact (Nat.le_min.mp hns).2
      have hoff : offset + cs ≤ m.length := by omega
      have hf1 : 1 ≤ f := by omega
      obtain ⟨pre, lst, heq, hsh⟩ := ih (offset + n) n hn hf1 (by omega)
      exact ⟨⟨offset, cs, (m.drop offset).take cs⟩ :: pre, lst, by rw [heq]; rfl, hsh⟩

-- ---------------------------------------------------------------------------
-- C1 / C10: the partial-fetch generator

/-- C1: the claim says the chunks yielded by `Mailserver.partials` cover the
message end-to-end with no gaps, the next requested offset after a
full-length response being the previous offset plus the bytes just fetched.
The code instead executes `chunksize = nextchunk` before `offset +=
chunksize`, so after the first full-length response (2 bytes at offset 0,
with firstchunk 2 and nextchunk 4) the next requested offset is 4, not 2:
the requested offsets are 0, 4, 8, bytes 2 and 3 of the message are never
fetched, and the concatenation of the yielded chunks is not the message. -/
theorem c1_partials_gap :
    (Mailserver.partials [0, 1, 2, 3, 4, 5, 6, 7, 8, 9] 2 4).map Fetch.offset = [0, 4, 8] ∧
    (Mailserver.partials [0, 1, 2, 3, 4, 5, 6, 7, 8, 9] 2 4).map Fetch.size = [2, 4, 4] ∧
    flat (chunks [0, 1, 2, 3, 4, 5, 6, 7, 8, 9] 2 4) = [0, 1, 4, 5, 6, 7, 8, 9] ∧
    flat (chunks [0, 1, 2, 3, 4, 5, 6, 7, 8, 9] 2 4) ≠ [0, 1, 2, 3, 4, 5, 6, 7, 8, 9] := by
  decide

/-- C10: `Mailserver.partials` performs a fetch and yields the returned chunk
before inspecting the returned byte count: for every message (including the
empty one) it yields at least one chunk, the first being exactly the first
fetch's data `m.take firstchunk` at offset 0, and the terminating short
response (returned bytes below the requested size) is itself the last
yielded chunk rather than being discarded. -/
theorem c10_partials_always_yields (m : List Nat) (f n : Nat)
    (hf : 1 ≤ f) (hn : 1 ≤ n) :
    (∃ rest, Mailserver.partials m f n = ⟨0, f, m.take f⟩ :: rest) ∧
    (∃ pre lst, Mailserver.partials m f n = pre ++ [lst] ∧
      lst.data.length < lst.size) := by
  constructor
  · show ∃ rest, partialsGo m n (m.length + 1 + 1) 0 f = _
    rw [partialsGo]
    simp only [List.drop_zero]
    split
    · exact ⟨[], rfl⟩
    · exact ⟨_, rfl⟩
  · exact partialsGo_short m n hn (m.length + 2) 0 f hf (by omega) (by omega)

/-- Witness for C10 at the message [5, 6] with chunk sizes 1. -/
theorem c10_partials_always_yields_witness :
    (∃ rest, Mailserver.partials [5, 6] 1 1 = ⟨0, 1, [5]⟩ :: rest) ∧
    (∃ pre lst, Mailserver.partials [5, 6] 1 1 = pre ++ [lst] ∧
      lst.data.length < lst.size) :=
  c10_partials_always_yields [5, 6] 1 1 (by decide) (by decide)

-- ---------------------------------------------------------------------------
-- C7: folder-name parsing

/-- C7 counterexample: the claim says `Mailserver.ls` yields exactly
`INBOX.Sent` on the listing line `(\HasNoChildren) "." "INBOX.Sent"`.  The
regex strips the flag list and the quoted delimiter but not the quotes
around the folder name, so the yielded string is not `INBOX.Sent`. -/
theorem c7_ls_counterexample :
    Mailserver.ls ["(\\HasNoChildren) \".\" \"INBOX.Sent\""] ≠ ["INBOX.Sent"] := by
  decide

/-- C7 amended: on the listing line `(\HasNoChildren) "." "INBOX.Sent"`,
`Mailserver.ls` yields the folder name still wrapped in its surrounding
double quotes: `"INBOX.Sent"` (12 characters). -/
theorem c7_ls_amended :
    Mailserver.ls ["(\\HasNoChildren) \".\" \"INBOX.Sent\""] = ["\"INBOX.Sent\""] := by
  decide

-- ---------------------------------------------------------------------------
-- C8: the digest and body bytes

/-- C8: the claim says the digest the engine computes is equal for any two
messages with identical header bytes, regardless of body content and of
where partial reads truncate.  Because `partials` skips the bytes between
`firstchunk` and `nextchunk`, body bytes can slide into the digested header
prefix: the two messages below have identical headers (`headerPart` = [65],
a one-byte header before the `\n\n` terminator) and differ only in one body
byte, yet with firstchunk 2 and nextchunk 4 the engine's accumulated buffer
is [65,10] ++ [98,10,10,0] resp. [65,10] ++ [99,10,10,0], whose digested
header part contains the differing body byte, so the digests differ (shown
with the injective hash fun b => b). -/
theorem c8_digest_depends_on_body :
    headerPart [65, 10, 10, 0, 98, 10, 10, 0] = headerPart [65, 10, 10, 0, 99, 10, 10, 0] ∧
    digestOf (fun b => b) 2 4 [65, 10, 10, 0, 98, 10, 10, 0] = some [65, 10, 98] ∧
    digestOf (fun b => b) 2 4 [65, 10, 10, 0, 99, 10, 10, 0] = some [65, 10, 99] ∧
    digestOf (fun b => b) 2 4 [65, 10, 10, 0, 98, 10, 10, 0] ≠
      digestOf (fun b => b) 2 4 [65, 10, 10, 0, 99, 10, 10, 0] := by
  decide

-- ---------------------------------------------------------------------------
-- C5: malformed message (no header terminator)

/-- C5 counterexample: the claim says a uid whose header accumulation
exhausts the reader without finding a terminator is skipped and subsequent
higher uids in the same folder run are still processed.  In the code the
`next(partials)` call raises an uncaught `StopIteration`, which aborts the
whole run: with uid 1 malformed and uid 2 well formed and new, the run ends
with ok = false, an empty trace and an unchanged state — uid 2 is never
processed (no event for it, nothing archived) although its header reads
fine. -/
theorem c5_malformed_counterexample :
    runFolder (fun b => b) true [70] [78] Mailserver.FIRSTCHUNK Mailserver.NEXTCHUNK
        c5msg [1, 2] ⟨[], []⟩ = ⟨false, ⟨[], []⟩, []⟩ ∧
    (headerRead Mailserver.FIRSTCHUNK Mailserver.NEXTCHUNK (c5msg 2)).isSome = true := by
  constructor
  · rfl
  · decide

/-- C5 amended: if the accumulated header bytes of a candidate uid never
contain a header terminator before the partial-fetch reader is exhausted,
the run terminates at that uid with an uncaught StopIteration: the state and
trace remain those of the successfully processed preceding uids (so the
watermark is not advanced past the malformed uid), and no subsequent uid of
that folder run is processed. -/
theorem c5_malformed_amended (H : List Nat → List Nat) (fB ns : List Nat)
    (highest f n : Nat) (msg : Nat → List Nat) (u : Nat) (post : List Nat)
    (st : EngineState) (pre : List Nat)
    (hmal : headerRead f n (msg u) = none)
    (hok : (runUids H fB ns highest f n msg pre st).ok = true) :
    runUids H fB ns highest f n msg (pre ++ u :: post) st =
      ⟨false, (runUids H fB ns highest f n msg pre st).state,
       (runUids H fB ns highest f n msg pre st).trace⟩ := by
  induction pre generalizing st with
  | nil =>
    have hpu : processUid H fB ns highest f n msg st u = none := by
      unfold processUid
      rw [hmal]
    rw [List.nil_append, runUids_cons_none post hpu,
      runUids_nil]
  | cons uid pre' ih =>
    cases hp : processUid H fB ns highest f n msg st uid with
    | none =>
      rw [runUids_cons_none pre' hp] at hok
      simp at hok
    | some p =>
      obtain ⟨st2, ev⟩ := p
      rw [runUids_cons_some pre' hp] at hok
      have hok' : (runUids H fB ns highest f n msg pre' st2).ok = true := hok
      rw [show (uid :: pre') ++ u :: post = uid :: (pre' ++ u :: post) from rfl,
        runUids_cons_some (pre' ++ u :: post) hp,
        ih st2 hok',
        runUids_cons_some pre' hp]

/-- Witness for C5 amended: empty prefix, malformed uid 1, pending uid 2. -/
theorem c5_malformed_amended_witness :
    runUids (fun b => b) [70] [78] 0 Mailserver.FIRSTCHUNK Mailserver.NEXTCHUNK
        c5msg ([] ++ 1 :: [2]) ⟨[], []⟩ =
      ⟨false,
       (runUids (fun b => b) [70] [78] 0 Mailserver.FIRSTCHUNK Mailserver.NEXTCHUNK
          c5msg [] ⟨[], []⟩).state,
       (runUids (fun b => b) [70] [78] 0 Mailserver.FIRSTCHUNK Mailserver.NEXTCHUNK
          c5msg [] ⟨[], []⟩).trace⟩ :=
  c5_malformed_amended (fun b => b) [70] [78] 0 Mailserver.FIRSTCHUNK
    Mailserver.NEXTCHUNK c5msg 1 [2] ⟨[], []⟩ [] (by decide) (by decide)

-- ---------------------------------------------------------------------------
-- C3 / C9: persistence ordering within the trace

theorem processUid_none {H : List Nat → List Nat} {fB ns : List Nat}
    {highest f n : Nat} {msg : Nat → List Nat} {st : EngineState} {uid : Nat}
    (hh : headerRead f n (msg uid) = none) :
    processUid H fB ns highest f n msg st uid = none := by
  unfold processUid
  rw [hh]

theorem processUid_some (H : List Nat → List Nat) (fB ns : List Nat)
    (highest : Nat) {f n : Nat} {msg : Nat → List Nat} (st : EngineState) {uid : Nat}
    {buf : List Nat} {rest : List (List Nat)}
    (hh : headerRead f n (msg uid) = some (buf, rest)) :
    processUid H fB ns highest f n msg st uid =
      some (processFound H fB ns highest st uid buf rest) := by
  unfold processUid
  rw [hh]

theorem processFound_dup {H : List Nat → List Nat} {fB ns : List Nat}
    {highest : Nat} {st : EngineState} {uid : Nat} {buf : List Nat}
    {rest : List (List Nat)}
    (hd : dbmHas st.index (H (headerPart buf)) = true) :
    processFound H fB ns highest st uid buf rest = (st, [Event.skipDup uid]) := by
  unfold processFound
  rw [hd]
  rfl

theorem processFound_new_wm {H : List Nat → List Nat} {fB ns : List Nat}
    {highest : Nat} {st : EngineState} {uid : Nat} {buf : List Nat}
    {rest : List (List Nat)}
    (hd : dbmHas st.index (H (headerPart buf)) = false) (hw : highest < uid) :
    processFound H fB ns highest st uid buf rest =
      (⟨dbmSet (dbmSet st.index (H (headerPart buf)) (dgstVal fB st.archive.length))
          fB (natBytes uid),
        st.archive ++ [(buf ++ flat rest, ns)]⟩,
       [Event.store uid (buf ++ flat rest) st.archive.length,
        Event.putDigest uid (H (headerPart buf)),
        Event.putWatermark uid]) := by
  unfold processFound
  rw [hd, if_neg (by simp), if_pos hw]

theorem processFound_new_nowm {H : List Nat → List Nat} {fB ns : List Nat}
    {highest : Nat} {st : EngineState} {uid : Nat} {buf : List Nat}
    {rest : List (List Nat)}
    (hd : dbmHas st.index (H (headerPart buf)) = false) (hw : ¬ highest < uid) :
    processFound H fB ns highest st uid buf rest =
      (⟨dbmSet st.index (H (headerPart buf)) (dgstVal fB st.archive.length),
        st.archive ++ [(buf ++ flat rest, ns)]⟩,
       [Event.store uid (buf ++ flat rest) st.archive.length,
        Event.putDigest uid (H (headerPart buf))]) := by
  unfold processFound
  rw [hd, if_neg (by simp), if_neg hw]

theorem processUid_trace_shape {H : List Nat → List Nat} {fB ns : List Nat}
    {highest f n : Nat} {msg : Nat → List Nat} {st : EngineState} {uid : Nat}
    {st2 : EngineState} {ev : List Event}
    (h : processUid H fB ns highest f n msg st uid = some (st2, ev)) :
    ev = [Event.skipDup uid] ∨
    (∃ b k d, ev = [Event.store uid b k, Event.putDigest uid d]) ∨
    (∃ b k d, ev = [Event.store uid b k, Event.putDigest uid d,
        Event.putWatermark uid] ∧ highest < uid) := by
  cases hh : headerRead f n (msg uid) with
  | none => rw [processUid_none hh] at h; exact absurd h (by simp)
  | some p =>
    obtain ⟨buf, rest⟩ := p
    rw [processUid_some H fB ns highest st hh] at h
    have h2 : processFound H fB ns highest st uid buf rest = (st2, ev) :=
      Option.some.injEq _ _ ▸ h
    cases hd : dbmHas st.index (H (headerPart buf)) with
    | true =>
      rw [processFound_dup hd] at h2
      exact Or.inl (congrArg Prod.snd h2).symm
    | false =>
      by_cases hw : highest < uid
      · rw [processFound_new_wm hd hw] at h2
        exact Or.inr (Or.inr ⟨_, _, _, (congrArg Prod.snd h2).symm, hw⟩)
      · rw [processFound_new_nowm hd hw] at h2
        exact Or.inr (Or.inl ⟨_, _, _, (congrArg Prod.snd h2).symm⟩)

theorem dedupOrdered_runUids (H : List Nat → List Nat) (fB ns : List Nat)
    (highest f n : Nat) (msg : Nat → List Nat) :
    ∀ (uids : List Nat) (st : EngineState) (acc : List Nat),
    dedupOrdered acc (runUids H fB ns highest f n msg uids st).trace = true := by
  intro uids
  induction uids with
  | nil => intro st acc; rw [runUids_nil]; rfl
  | cons uid rest ih =>
    intro st acc
    cases hp : processUid H fB ns highest f n msg st uid with
    | none => rw [runUids_cons_none rest hp]; rfl
    | some p =>
      obtain ⟨st2, ev⟩ := p
      rw [runUids_cons_some rest hp]
      rcases processUid_trace_shape hp with
        hev | ⟨b, k, d, hev⟩ | ⟨b, k, d, hev, _⟩ <;> subst hev <;>
        simp only [List.cons_append, List.nil_append, dedupOrdered,
          List.contains_cons, beq_self_eq_true, Bool.true_or, Bool.true_and] <;>
        exact ih st2 _

theorem dedupOrdered_sound :
    ∀ (t1 : List Event) (acc : List Nat) (t : List Event),
    dedupOrdered acc t = true →
    ∀ (u : Nat) (d : List Nat) (t2 : List Event),
    t = t1 ++ Event.putDigest u d :: t2 →
    u ∈ acc ∨ ∃ b k, Event.store u b k ∈ t1 := by
  intro t1
  induction t1 with
  | nil =>
    intro acc t hchk u d t2 hdec
    subst hdec
    simp only [List.nil_append, dedupOrdered, Bool.and_eq_true] at hchk
    left
    have := hchk.1
    simpa using this
  | cons e t1' ih =>
    intro acc t hchk u d t2 hdec
    subst hdec
    cases e with
    | store x b k =>
      simp only [List.cons_append, dedupOrdered] at hchk
      rcases ih (x :: acc) _ hchk u d t2 rfl with hm | ⟨b', k', hin⟩
      · rcases List.mem_cons.mp hm with hx | ha
        · subst hx
          exact Or.inr ⟨b, k, List.mem_cons_self _ _⟩
        · exact Or.inl ha
      · exact Or.inr ⟨b', k', List.mem_cons_of_mem _ hin⟩
    | putDigest x dd =>
      simp only [List.cons_append, dedupOrdered, Bool.and_eq_true] at hchk
      rcases ih acc _ hchk.2 u d t2 rfl with hm | ⟨b', k', hin⟩
      · exact Or.inl hm
      · exact Or.inr ⟨b', k', List.mem_cons_of_mem _ hin⟩
    | putWatermark x =>
      simp only [List.cons_append, dedupOrdered] at hchk
      rcases ih acc _ hchk u d t2 rfl with hm | ⟨b', k', hin⟩
      · exact Or.inl hm
      · exact Or.inr ⟨b', k', List.mem_cons_of_mem _ hin⟩
    | skipDup x =>
      simp only [List.cons_append, dedupOrdered] at hchk
      rcases ih acc _ hchk u d t2 rfl with hm | ⟨b', k', hin⟩
      · exact Or.inl hm
      · exact Or.inr ⟨b', k', List.mem_cons_of_mem _ hin⟩

/-- C3: for every run of the candidate loop, whenever the trace contains a
Dedup Record write `putDigest u d`, a completed Archive Store write
`store u _ _` for the same uid occurs strictly earlier in the trace: the
archive write completes before the index record is written, and no digest
record is ever written without its archive write having completed. -/
theorem c3_archive_before_dedup_record (H : List Nat → List Nat) (fB ns : List Nat)
    (highest f n : Nat) (msg : Nat → List Nat) (uids : List Nat) (st : EngineState) :
    ∀ (t1 : List Event) (u : Nat) (d : List Nat) (t2 : List Event),
    (runUids H fB ns highest f n msg uids st).trace = t1 ++ Event.putDigest u d :: t2 →
    ∃ b k, Event.store u b k ∈ t1 := by
  intro t1 u d t2 hdec
  rcases dedupOrdered_sound t1 [] _
      (dedupOrdered_runUids H fB ns highest f n msg uids st []) u d t2 hdec with h | h
  · simp at h
  · exact h

/-- Witness for C3: with one new message at uid 1, the Dedup Record write in
the concrete trace is preceded by the archive store event. -/
theorem c3_archive_before_dedup_record_witness :
    ∃ b k, Event.store 1 b k ∈ [Event.store 1 [97, 10, 10] 0] :=
  c3_archive_before_dedup_record (fun b => b) [70] [78] 0 Mailserver.FIRSTCHUNK
    Mailserver.NEXTCHUNK demoMsg [1] ⟨[], []⟩
    [Event.store 1 [97, 10, 10] 0] 1 [97] [Event.putWatermark 1] (by decide)

theorem wmOrdered_runUids (H : List Nat → List Nat) (fB ns : List Nat)
    (highest f n : Nat) (msg : Nat → List Nat) :
    ∀ (uids : List Nat) (st : EngineState) (accS accP : List Nat),
    wmOrdered accS accP (runUids H fB ns highest f n msg uids st).trace = true := by
  intro uids
  induction uids with
  | nil => intro st accS accP; rw [runUids_nil]; rfl
  | cons uid rest ih =>
    intro st accS accP
    cases hp : processUid H fB ns highest f n msg st uid with
    | none => rw [runUids_cons_none rest hp]; rfl
    | some p =>
      obtain ⟨st2, ev⟩ := p
      rw [runUids_cons_some rest hp]
      rcases processUid_trace_shape hp with
        hev | ⟨b, k, d, hev⟩ | ⟨b, k, d, hev, _⟩ <;> subst hev <;>
        simp only [List.cons_append, List.nil_append, wmOrdered,
          List.contains_cons, beq_self_eq_true, Bool.true_or, Bool.true_and] <;>
        exact ih st2 _ _

theorem wmOrdered_sound :
    ∀ (t1 : List Event) (accS accP : List Nat) (t : List Event),
    wmOrdered accS accP t = true →
    ∀ (u : Nat) (t2 : List Event),
    t = t1 ++ Event.putWatermark u :: t2 →
    (u ∈ accS ∨ ∃ b k, Event.store u b k ∈ t1) ∧
    (u ∈ accP ∨ ∃ d, Event.putDigest u d ∈ t1) := by
  intro t1
  induction t1 with
  | nil =>
    intro accS accP t hchk u t2 hdec
    subst hdec
    simp only [List.nil_append, wmOrdered, Bool.and_eq_true] at hchk
    exact ⟨Or.inl (by simpa using hchk.1.1), Or.inl (by simpa using hchk.1.2)⟩
  | cons e t1' ih =>
    intro accS accP t hchk u t2 hdec
    subst hdec
    cases e with
    | store x b k =>
      simp only [List.cons_append, wmOrdered] at hchk
      obtain ⟨hS, hP⟩ := ih (x :: accS) accP _ hchk u t2 rfl
      constructor
      · rcases hS with hm | ⟨b', k', hin⟩
        · rcases List.mem_cons.mp hm with hx | ha
          · subst hx
            exact Or.inr ⟨b, k, List.mem_cons_self _ _⟩
          · exact Or.inl ha
        · exact Or.inr ⟨b', k', List.mem_cons_of_mem _ hin⟩
      · rcases hP with hm | ⟨d', hin⟩
        · exact Or.inl hm
        · exact Or.inr ⟨d', List.mem_cons_of_mem _ hin⟩
    | putDigest x dd =>
      simp only [List.cons_append, wmOrdered] at hchk
      obtain ⟨hS, hP⟩ := ih accS (x :: accP) _ hchk u t2 rfl
      constructor
      · rcases hS with hm | ⟨b', k', hin⟩
        · exact Or.inl hm
        · exact Or.inr ⟨b', k', List.mem_cons_of_mem _ hin⟩
      · rcases hP with hm | ⟨d', hin⟩
        · rcases List.mem_cons.mp hm with hx | ha
          · subst hx
            exact Or.inr ⟨dd, List.mem_cons_self _ _⟩
          · exact Or.inl ha
        · exact Or.inr ⟨d', List.mem_cons_of_mem _ hin⟩
    | putWatermark x =>
      simp only [List.cons_append, wmOrdered, Bool.and_eq_true] at hchk
      obtain ⟨hS, hP⟩ := ih accS accP _ hchk.2 u t2 rfl
      constructor
      · rcases hS with hm | ⟨b', k', hin⟩
        · exact Or.inl hm
        · exact Or.inr ⟨b', k', List.mem_cons_of_mem _ hin⟩
      · rcases hP with hm | ⟨d', hin⟩
        · exact Or.inl hm
        · exact Or.inr ⟨d', List.mem_cons_of_mem _ hin⟩
    | skipDup x =>
      simp only [List.cons_append, wmOrdered] at hchk
      obtain ⟨hS, hP⟩ := ih accS accP _ hchk u t2 rfl
      constructor
      · rcases hS with hm | ⟨b', k', hin⟩
        · exact Or.inl hm
        · exact Or.inr ⟨b', k', List.mem_cons_of_mem _ hin⟩
      · rcases hP with hm | ⟨d', hin⟩
        · exact Or.inl hm
        · exact Or.inr ⟨d', List.mem_cons_of_mem _ hin⟩

theorem wmUids_runUids (H : List Nat → List Nat) (fB ns : List Nat)
    (highest f n : Nat) (msg : Nat → List Nat) :
    ∀ (uids : List Nat) (st : EngineState),
    List.Sublist (wmUids (runUids H fB ns highest f n msg uids st).trace) uids ∧
    ∀ u ∈ wmUids (runUids H fB ns highest f n msg uids st).trace, highest < u := by
  intro uids
  induction uids with
  | nil =>
    intro st
    rw [runUids_nil]
    exact ⟨List.nil_sublist _, by intro u hu; simp [wmUids] at hu⟩
  | cons uid rest ih =>
    intro st
    cases hp : processUid H fB ns highest f n msg st uid with
    | none =>
      rw [runUids_cons_none rest hp]
      exact ⟨List.nil_sublist _, by intro u hu; simp [wmUids] at hu⟩
    | some p =>
      obtain ⟨st2, ev⟩ := p
      rw [runUids_cons_some rest hp]
      obtain ⟨ihs, ihb⟩ := ih st2
      rcases processUid_trace_shape hp with
        hev | ⟨b, k, d, hev⟩ | ⟨b, k, d, hev, hw⟩ <;> subst hev <;>
        simp only [wmUids, List.filterMap_append, List.filterMap_cons,
          List.filterMap_nil, List.nil_append, List.cons_append] at *
      · exact ⟨ihs.cons uid, ihb⟩
      · exact ⟨ihs.cons uid, ihb⟩
      · constructor
        · exact ihs.cons₂ uid
        · intro u hu
          rcases List.mem_cons.mp hu with hx | ha
          · subst hx; exact hw
          · exact ihb u ha

/-- C9: in every folder run, (a) the trace contains a watermark write
`putWatermark u` only after the candidate at `u` has been fully handled —
its archive store and its Dedup Record write occur strictly earlier in the
trace (for a duplicate no watermark event is emitted at all, so the
statement holds for every watermark write) — and (b) when the candidate
uids are strictly increasing, the stored watermark never regresses: the
initial watermark value followed by the uids of the successive watermark
writes is a non-decreasing sequence. -/
theorem c9_watermark_ordering (H : List Nat → List Nat) (incr : Bool)
    (fB ns : List Nat) (f n : Nat) (msg : Nat → List Nat) (uids : List Nat)
    (st : EngineState)
    (hsort : List.Pairwise (fun a b => a < b) uids) :
    (∀ (t1 : List Event) (u : Nat) (t2 : List Event),
      (runFolder H incr fB ns f n msg uids st).trace = t1 ++ Event.putWatermark u :: t2 →
      (∃ b k, Event.store u b k ∈ t1) ∧ (∃ d, Event.putDigest u d ∈ t1)) ∧
    List.Pairwise (fun a b => a ≤ b)
      (watermarkOf st.index fB ::
        wmUids (runFolder H incr fB ns f n msg uids st).trace) := by
  constructor
  · intro t1 u t2 hdec
    have hchk := wmOrdered_runUids H fB ns (watermarkOf st.index fB) f n msg
      (Mailserver.mails uids (if incr then watermarkOf st.index fB else 1)) st [] []
    obtain ⟨hS, hP⟩ := wmOrdered_sound t1 [] [] _ hchk u t2 hdec
    constructor
    · rcases hS with hm | h
      · simp at hm
      · exact h
    · rcases hP with hm | h
      · simp at hm
      · exact h
  · obtain ⟨hs, hb⟩ := wmUids_runUids H fB ns (watermarkOf st.index fB) f n msg
      (Mailserver.mails uids (if incr then watermarkOf st.index fB else 1)) st
    rw [List.pairwise_cons]
    constructor
    · intro u hu
      exact le_of_lt (hb u hu)
    · exact (List.Pairwise.sublist hs (hsort.filter _)).imp le_of_lt

/-- Witness for C9 at a one-new-message run. -/
theorem c9_watermark_ordering_witness :
    (∀ (t1 : List Event) (u : Nat) (t2 : List Event),
      (runFolder (fun b => b) true [70] [78] Mailserver.FIRSTCHUNK
          Mailserver.NEXTCHUNK demoMsg [1] ⟨[], []⟩).trace =
        t1 ++ Event.putWatermark u :: t2 →
      (∃ b k, Event.store u b k ∈ t1) ∧ (∃ d, Event.putDigest u d ∈ t1)) ∧
    List.Pairwise (fun a b => a ≤ b)
      (watermarkOf (⟨[], []⟩ : EngineState).index [70] ::
        wmUids (runFolder (fun b => b) true [70] [78] Mailserver.FIRSTCHUNK
          Mailserver.NEXTCHUNK demoMsg [1] ⟨[], []⟩).trace) :=
  c9_watermark_ordering (fun b => b) true [70] [78] Mailserver.FIRSTCHUNK
    Mailserver.NEXTCHUNK demoMsg [1] ⟨[], []⟩ (by decide)

-- ---------------------------------------------------------------------------
-- C2 / C4 / C6: behaviour of a whole candidate run over the index and archive

theorem processUid_char (H : List Nat → List Nat) (fB ns : List Nat)
    (highest : Nat) {f n : Nat} {msg : Nat → List Nat} (st : EngineState) {uid : Nat}
    {buf : List Nat} {rst : List (List Nat)}
    (hh : headerRead f n (msg uid) = some (buf, rst)) :
    (dbmHas st.index (H (headerPart buf)) = true ∧
      processUid H fB ns highest f n msg st uid = some (st, [Event.skipDup uid])) ∨
    (dbmHas st.index (H (headerPart buf)) = false ∧ highest < uid ∧
      processUid H fB ns highest f n msg st uid =
        some (⟨dbmSet (dbmSet st.index (H (headerPart buf)) (dgstVal fB st.archive.length))
                 fB (natBytes uid),
               st.archive ++ [(buf ++ flat rst, ns)]⟩,
              [Event.store uid (buf ++ flat rst) st.archive.length,
               Event.putDigest uid (H (headerPart buf)),
               Event.putWatermark uid])) ∨
    (dbmHas st.index (H (headerPart buf)) = false ∧ ¬ highest < uid ∧
      processUid H fB ns highest f n msg st uid =
        some (⟨dbmSet st.index (H (headerPart buf)) (dgstVal fB st.archive.length),
               st.archive ++ [(buf ++ flat rst, ns)]⟩,
              [Event.store uid (buf ++ flat rst) st.archive.length,
               Event.putDigest uid (H (headerPart buf))])) := by
  cases hd : dbmHas st.index (H (headerPart buf)) with
  | true =>
    exact Or.inl ⟨rfl, (processUid_some H fB ns highest st hh).trans (congrArg some (processFound_dup hd))⟩
  | false =>
    by_cases hw : highest < uid
    · exact Or.inr (Or.inl ⟨rfl, hw,
        (processUid_some H fB ns highest st hh).trans (congrArg some (processFound_new_wm hd hw))⟩)
    · exact Or.inr (Or.inr ⟨rfl, hw,
        (processUid_some H fB ns highest st hh).trans (congrArg some (processFound_new_nowm hd hw))⟩)

theorem runUids_index_isSome (H : List Nat → List Nat) (fB ns : List Nat)
    (highest f n : Nat) (msg : Nat → List Nat) :
    ∀ (uids : List Nat) (st : EngineState) (k : List Nat),
    (dbmGet st.index k).isSome = true →
    (dbmGet (runUids H fB ns highest f n msg uids st).state.index k).isSome = true := by
  intro uids
  induction uids with
  | nil => intro st k h; rw [runUids_nil]; exact h
  | cons uid rest ih =>
    intro st k h
    cases hh : headerRead f n (msg uid) with
    | none => rw [runUids_cons_none rest (processUid_none hh)]; exact h
    | some q =>
      obtain ⟨buf, rst⟩ := q
      rcases processUid_char H fB ns highest st hh with
        ⟨hd, hp⟩ | ⟨hd, hw, hp⟩ | ⟨hd, hw, hp⟩
      · rw [runUids_cons_some rest hp]
        exact ih st k h
      · rw [runUids_cons_some rest hp]
        exact ih _ k (dbmGet_set_isSome _ _ _ _ (dbmGet_set_isSome _ _ _ _ h))
      · rw [runUids_cons_some rest hp]
        exact ih _ k (dbmGet_set_isSome _ _ _ _ h)

/-- Characterization of a full candidate run when every candidate's header
reads successfully and the candidates' digests are pairwise distinct and
distinct from the folder key: the run completes, exactly the candidates
whose digest is initially absent are archived (in order), afterwards every
candidate's digest is present in the index, the folder watermark record ends
at the last newly-archived candidate exceeding `highest` (or keeps its prior
value), and a watermark event is emitted exactly for the newly archived
candidates exceeding `highest`. -/
theorem runUids_master (H : List Nat → List Nat) (fB ns : List Nat)
    (highest f n : Nat) (msg : Nat → List Nat) (D : Nat → List Nat) :
    ∀ (uids : List Nat) (st : EngineState),
    (∀ u ∈ uids, digestOf H f n (msg u) = some (D u)) →
    List.Pairwise (fun a b => D a ≠ D b) uids →
    (∀ u ∈ uids, D u ≠ fB) →
    (runUids H fB ns highest f n msg uids st).ok = true ∧
    (runUids H fB ns highest f n msg uids st).state.archive =
      st.archive ++ (uids.filter fun u => !dbmHas st.index (D u)).map
        (fun u => (assembled f n (msg u), ns)) ∧
    (∀ u ∈ uids,
      dbmHas (runUids H fB ns highest f n msg uids st).state.index (D u) = true) ∧
    dbmGet (runUids H fB ns highest f n msg uids st).state.index fB =
      (match (uids.filter fun u =>
          !dbmHas st.index (D u) && decide (highest < u)).getLast? with
       | none => dbmGet st.index fB
       | some u => some (natBytes u)) ∧
    (∀ u, Event.putWatermark u ∈ (runUids H fB ns highest f n msg uids st).trace ↔
      (u ∈ uids ∧ dbmHas st.index (D u) = false ∧ highest < u)) := by
  intro uids
  induction uids with
  | nil =>
    intro st _ _ _
    rw [runUids_nil]
    exact ⟨rfl, by simp, by simp, by simp, by intro u; simp⟩
  | cons uid rest ih =>
    intro st hD hpw hfB
    have hDu : digestOf H f n (msg uid) = some (D uid) := hD uid (List.mem_cons_self _ _)
    rw [digestOf] at hDu
    obtain ⟨⟨buf, rst⟩, hh, hdg0⟩ := Option.map_eq_some'.mp hDu
    have hdg : H (headerPart buf) = D uid := hdg0
    have hDrest : ∀ u ∈ rest, digestOf H f n (msg u) = some (D u) :=
      fun u hu => hD u (List.mem_cons_of_mem _ hu)
    have hpwhead : ∀ u ∈ rest, D uid ≠ D u := (List.pairwise_cons.mp hpw).1
    have hpwrest := (List.pairwise_cons.mp hpw).2
    have hfBrest : ∀ u ∈ rest, D u ≠ fB := fun u hu => hfB u (List.mem_cons_of_mem _ hu)
    have hfBuid : D uid ≠ fB := hfB uid (List.mem_cons_self _ _)
    have hasm : buf ++ flat rst = assembled f n (msg uid) :=
      readHeader_flat (chunks (msg uid) f n) buf rst hh
    rcases processUid_char H fB ns highest st hh with
      ⟨hd, hp⟩ | ⟨hd, hw, hp⟩ | ⟨hd, hw, hp⟩
    · -- duplicate: the digest was found, nothing changes
      rw [hdg] at hd
      rw [runUids_cons_some rest hp]
      obtain ⟨iok, iarch, ilook, iwm, iiff⟩ := ih st hDrest hpwrest hfBrest
      refine ⟨iok, ?_, ?_, ?_, ?_⟩
      · rw [List.filter_cons_of_neg (by simp [hd])]
        exact iarch
      · intro u hu
        rcases List.mem_cons.mp hu with rfl | hur
        · exact runUids_index_isSome H fB ns highest f n msg rest st (D u) hd
        · exact ilook u hur
      · rw [List.filter_cons_of_neg (by simp [hd])]
        exact iwm
      · intro u
        simp only [List.cons_append, List.nil_append]
        constructor
        · intro hmem
          rcases List.mem_cons.mp hmem with habs | hmem'
          · exact absurd habs (by simp)
          · obtain ⟨hur, hfalse, hwu⟩ := (iiff u).mp hmem'
            exact ⟨List.mem_cons_of_mem _ hur, hfalse, hwu⟩
        · rintro ⟨humem, hfalse, hwu⟩
          rcases List.mem_cons.mp humem with rfl | hur
          · rw [hd] at hfalse
            exact absurd hfalse (by simp)
          · exact List.mem_cons_of_mem _ ((iiff u).mpr ⟨hur, hfalse, hwu⟩)
    · -- new message, watermark written
      rw [hdg] at hd hp
      rw [runUids_cons_some rest hp]
      obtain ⟨iok, iarch, ilook, iwm, iiff⟩ :=
        ih ⟨dbmSet (dbmSet st.index (D uid) (dgstVal fB st.archive.length))
              fB (natBytes uid),
            st.archive ++ [(buf ++ flat rst, ns)]⟩ hDrest hpwrest hfBrest
      have hA : ∀ u ∈ rest,
          dbmHas (dbmSet (dbmSet st.index (D uid) (dgstVal fB st.archive.length))
            fB (natBytes uid)) (D u) = dbmHas st.index (D u) := by
        intro u hu
        unfold dbmHas
        rw [dbmGet_set_ne _ _ _ _ (Ne.symm (hfBrest u hu)),
          dbmGet_set_ne _ _ _ _ (hpwhead u hu)]
      refine ⟨iok, ?_, ?_, ?_, ?_⟩
      · -- archive
        rw [iarch]
        rw [List.filter_congr (fun u hu => by rw [hA u hu])]
        rw [List.filter_cons_of_pos (by simp [hd])]
        simp only [List.map_cons, hasm, List.append_assoc, List.singleton_append]
      · -- digest lookups
        intro u hu
        rcases List.mem_cons.mp hu with rfl | hur
        · apply runUids_index_isSome
          rw [dbmGet_set_ne _ _ _ _ (Ne.symm hfBuid), dbmGet_set_self]
          rfl
        · exact ilook u hur
      · -- watermark record
        rw [iwm]
        rw [List.filter_congr (fun u hu => by rw [hA u hu])]
        rw [List.filter_cons_of_pos (by simp [hd, hw])]
        rw [dbmGet_set_self]
        cases hl : rest.filter fun u => !dbmHas st.index (D u) && decide (highest < u) with
        | nil => simp
        | cons x t =>
          rw [List.getLast?_cons_cons]
          cases hgl : (x :: t).getLast? with
          | none => simp at hgl
          | some y => rfl
      · -- watermark events
        intro u
        simp only [List.cons_append, List.nil_append]
        constructor
        · intro hmem
          rcases List.mem_cons.mp hmem with habs | hmem' 
          · exact absurd habs (by simp)
          rcases List.mem_cons.mp hmem' with habs | hmem''
          · exact absurd habs (by simp)
          rcases List.mem_cons.mp hmem'' with heq | hmem'''
          · have : u = uid := by injection heq
            subst this
            exact ⟨List.mem_cons_self _ _, hd, hw⟩
          · obtain ⟨hur, hfalse, hwu⟩ := (iiff u).mp hmem'''
            rw [hA u hur] at hfalse
            exact ⟨List.mem_cons_of_mem _ hur, hfalse, hwu⟩
        · rintro ⟨humem, hfalse, hwu⟩
          rcases List.mem_cons.mp humem with rfl | hur
          · exact List.mem_cons_of_mem _ (List.mem_cons_of_mem _ (List.mem_cons_self _ _))
          · refine List.mem_cons_of_mem _ (List.mem_cons_of_mem _ (List.mem_cons_of_mem _ ?_))
            refine (iiff u).mpr ⟨hur, ?_, hwu⟩
            rw [hA u hur]
            exact hfalse
    · -- new message, uid not above the stored watermark: no watermark write
      rw [hdg] at hd hp
      rw [runUids_cons_some rest hp]
      obtain ⟨iok, iarch, ilook, iwm, iiff⟩ :=
        ih ⟨dbmSet st.index (D uid) (dgstVal fB st.archive.length),
            st.archive ++ [(buf ++ flat rst, ns)]⟩ hDrest hpwrest hfBrest
      have hA : ∀ u ∈ rest,
          dbmHas (dbmSet st.index (D uid) (dgstVal fB st.archive.length)) (D u) =
            dbmHas st.index (D u) := by
        intro u hu
        unfold dbmHas
        rw [dbmGet_set_ne _ _ _ _ (hpwhead u hu)]
      refine ⟨iok, ?_, ?_, ?_, ?_⟩
      · rw [iarch]
        rw [List.filter_congr (fun u hu => by rw [hA u hu])]
        rw [List.filter_cons_of_pos (by simp [hd])]
        simp only [List.map_cons, hasm, List.append_assoc, List.singleton_append]
      · intro u hu
        rcases List.mem_cons.mp hu with rfl | hur
        · apply runUids_index_isSome
          rw [dbmGet_set_self]
          rfl
        · exact ilook u hur
      · rw [iwm]
        rw [List.filter_congr (fun u hu => by rw [hA u hu])]
        rw [List.filter_cons_of_neg (by simp [hd, hw])]
        cases hgl : (rest.filter fun u =>
            !dbmHas st.index (D u) && decide (highest < u)).getLast? with
        | none => exact dbmGet_set_ne _ _ _ _ hfBuid
        | some y => rfl
      · intro u
        simp only [List.cons_append, List.nil_append]
        constructor
        · intro hmem
          rcases List.mem_cons.mp hmem with habs | hmem'
          · exact absurd habs (by simp)
          rcases List.mem_cons.mp hmem' with habs | hmem''
          · exact absurd habs (by simp)
          obtain ⟨hur, hfalse, hwu⟩ := (iiff u).mp hmem''
          rw [hA u hur] at hfalse
          exact ⟨List.mem_cons_of_mem _ hur, hfalse, hwu⟩
        · rintro ⟨humem, hfalse, hwu⟩
          rcases List.mem_cons.mp humem with rfl | hur
          · exact absurd hwu hw
          · refine List.mem_cons_of_mem _ (List.mem_cons_of_mem _ ?_)
            refine (iiff u).mpr ⟨hur, ?_, hwu⟩
            rw [hA u hur]
            exact hfalse

theorem runFolder_eq (H : List Nat → List Nat) (incr : Bool) (fB ns : List Nat)
    (f n : Nat) (msg : Nat → List Nat) (uids : List Nat) (st : EngineState) :
    runFolder H incr fB ns f n msg uids st =
      runUids H fB ns (watermarkOf st.index fB) f n msg
        (Mailserver.mails uids (if incr then watermarkOf st.index fB else 1)) st := rfl

/-- A run in which every candidate's digest is already present in the index
changes nothing: it completes, leaves the state untouched, and merely skips
every candidate. -/
theorem runUids_dup (H : List Nat → List Nat) (fB ns : List Nat)
    (highest f n : Nat) (msg : Nat → List Nat) (D : Nat → List Nat) :
    ∀ (uids : List Nat) (st : EngineState),
    (∀ u ∈ uids, digestOf H f n (msg u) = some (D u)) →
    (∀ u ∈ uids, dbmHas st.index (D u) = true) →
    runUids H fB ns highest f n msg uids st = ⟨true, st, uids.map Event.skipDup⟩ := by
  intro uids
  induction uids with
  | nil => intro st _ _; rw [runUids_nil]; rfl
  | cons uid rest ih =>
    intro st hD hdup
    have hDu := hD uid (List.mem_cons_self _ _)
    rw [digestOf] at hDu
    obtain ⟨⟨buf, rst⟩, hh, hdg0⟩ := Option.map_eq_some'.mp hDu
    have hdg : H (headerPart buf) = D uid := hdg0
    have hd : dbmHas st.index (H (headerPart buf)) = true := by
      rw [hdg]
      exact hdup uid (List.mem_cons_self _ _)
    have hp := (processUid_some H fB ns highest st hh).trans
      (congrArg some (processFound_dup hd))
    rw [runUids_cons_some rest hp,
      ih st (fun u hu => hD u (List.mem_cons_of_mem _ hu))
        (fun u hu => hdup u (List.mem_cons_of_mem _ hu))]
    rfl

-- ---------------------------------------------------------------------------
-- C2: second run over an unchanged folder

/-- C2: starting from a fresh index and archive, running the engine over a
folder of well-formed messages with pairwise distinct digests (all uids at
least 1, digests distinct from the folder key) archives exactly one copy of
each candidate message; running it a second time over the unchanged folder
— with either value of the incremental flag — leaves the state (index and
archive) exactly as after the first run and only emits skip events: every
candidate of the second run has its digest found in the index, so the
Archive Store is never invoked again. -/
theorem c2_second_run_idempotent (H : List Nat → List Nat) (fB ns : List Nat)
    (f n : Nat) (msg : Nat → List Nat) (D : Nat → List Nat) (uids : List Nat)
    (incr2 : Bool)
    (hD : ∀ u ∈ uids, digestOf H f n (msg u) = some (D u))
    (hpw : List.Pairwise (fun a b => D a ≠ D b) uids)
    (hfB : ∀ u ∈ uids, D u ≠ fB)
    (hpos : ∀ u ∈ uids, 1 ≤ u) :
    (runFolder H true fB ns f n msg uids ⟨[], []⟩).state.archive =
      uids.map (fun u => (assembled f n (msg u), ns)) ∧
    runFolder H incr2 fB ns f n msg uids
        (runFolder H true fB ns f n msg uids ⟨[], []⟩).state =
      ⟨true, (runFolder H true fB ns f n msg uids ⟨[], []⟩).state,
       (Mailserver.mails uids (if incr2 then
          watermarkOf (runFolder H true fB ns f n msg uids ⟨[], []⟩).state.index fB
          else 1)).map Event.skipDup⟩ ∧
    (∀ u ∈ Mailserver.mails uids (if incr2 then
        watermarkOf (runFolder H true fB ns f n msg uids ⟨[], []⟩).state.index fB
        else 1),
      dbmHas (runFolder H true fB ns f n msg uids ⟨[], []⟩).state.index (D u) = true) := by
  have hmails0 : Mailserver.mails uids 0 = uids :=
    List.filter_eq_self.mpr fun u hu => decide_eq_true (hpos u hu)
  have hw0 : watermarkOf (⟨[], []⟩ : EngineState).index fB = 0 := rfl
  have hrf1 : runFolder H true fB ns f n msg uids ⟨[], []⟩ =
      runUids H fB ns 0 f n msg uids ⟨[], []⟩ := by
    rw [runFolder_eq, hw0, if_pos rfl, hmails0]
  obtain ⟨mok, march, mlook, mwm, miff⟩ :=
    runUids_master H fB ns 0 f n msg D uids ⟨[], []⟩ hD hpw hfB
  have hfilt : List.filter (fun u => !dbmHas (⟨[], []⟩ : EngineState).index (D u)) uids
      = uids := List.filter_eq_self.mpr fun u hu => rfl
  have harch1 : (runFolder H true fB ns f n msg uids ⟨[], []⟩).state.archive =
      uids.map (fun u => (assembled f n (msg u), ns)) := by
    rw [hrf1, march, hfilt]
    rfl
  refine ⟨harch1, ?_, ?_⟩
  · rw [runFolder_eq]
    rw [hrf1]
    exact runUids_dup H fB ns
      (watermarkOf (runUids H fB ns 0 f n msg uids ⟨[], []⟩).state.index fB) f n msg D
      (Mailserver.mails uids (if incr2 then
        watermarkOf (runUids H fB ns 0 f n msg uids ⟨[], []⟩).state.index fB else 1))
      (runUids H fB ns 0 f n msg uids ⟨[], []⟩).state
      (fun u hu => hD u (List.mem_filter.mp hu).1)
      (fun u hu => mlook u (List.mem_filter.mp hu).1)
  · intro u hu
    rw [hrf1]
    rw [hrf1] at hu
    exact mlook u (List.mem_filter.mp hu).1

/-- Witness for C2 on a two-message folder with distinct one-byte headers,
Blake2b instantiated with an injective hash, default chunk sizes. -/
theorem c2_second_run_idempotent_witness :
    (runFolder (fun b => b) true [70] [78] Mailserver.FIRSTCHUNK Mailserver.NEXTCHUNK
        demoMsg [1, 2] ⟨[], []⟩).state.archive =
      [1, 2].map (fun u =>
        (assembled Mailserver.FIRSTCHUNK Mailserver.NEXTCHUNK (demoMsg u), [78])) ∧
    runFolder (fun b => b) true [70] [78] Mailserver.FIRSTCHUNK Mailserver.NEXTCHUNK
        demoMsg [1, 2]
        (runFolder (fun b => b) true [70] [78] Mailserver.FIRSTCHUNK
          Mailserver.NEXTCHUNK demoMsg [1, 2] ⟨[], []⟩).state =
      ⟨true, (runFolder (fun b => b) true [70] [78] Mailserver.FIRSTCHUNK
          Mailserver.NEXTCHUNK demoMsg [1, 2] ⟨[], []⟩).state,
       (Mailserver.mails [1, 2] (if true then
          watermarkOf (runFolder (fun b => b) true [70] [78] Mailserver.FIRSTCHUNK
            Mailserver.NEXTCHUNK demoMsg [1, 2] ⟨[], []⟩).state.index [70]
          else 1)).map Event.skipDup⟩ ∧
    (∀ u ∈ Mailserver.mails [1, 2] (if true then
        watermarkOf (runFolder (fun b => b) true [70] [78] Mailserver.FIRSTCHUNK
          Mailserver.NEXTCHUNK demoMsg [1, 2] ⟨[], []⟩).state.index [70]
        else 1),
      dbmHas (runFolder (fun b => b) true [70] [78] Mailserver.FIRSTCHUNK
        Mailserver.NEXTCHUNK demoMsg [1, 2] ⟨[], []⟩).state.index
        ((fun u => if u = 1 then [97] else [98]) u) = true) :=
  c2_second_run_idempotent (fun b => b) [70] [78] Mailserver.FIRSTCHUNK
    Mailserver.NEXTCHUNK demoMsg (fun u => if u = 1 then [97] else [98]) [1, 2] true
    (by decide) (by decide) (by decide) (by decide)

-- ---------------------------------------------------------------------------
-- C4: watermark persistence per processed uid

/-- C4 counterexample: the claim says that after each processed candidate —
duplicate or newly archived — the folder's watermark record is updated to
the maximum of its previous value and that uid.  Here the folder starts with
watermark "1" and the single candidate uid 5 is recognized as a duplicate
(its digest [98] is already indexed): the run processes uid 5, yet the
watermark record still holds "1" ([49]) and not "5" (natBytes 5 = [53]) —
the watermark write lives only in the new-message branch (line 166). -/
theorem c4_watermark_counterexample :
    runFolder (fun b => b) true [70] [78] Mailserver.FIRSTCHUNK Mailserver.NEXTCHUNK
        demoMsg [5] ⟨[([70], [49]), ([98], [48])], []⟩ =
      ⟨true, ⟨[([70], [49]), ([98], [48])], []⟩, [Event.skipDup 5]⟩ ∧
    dbmGet (runFolder (fun b => b) true [70] [78] Mailserver.FIRSTCHUNK
        Mailserver.NEXTCHUNK demoMsg [5]
        ⟨[([70], [49]), ([98], [48])], []⟩).state.index [70] = some [49] ∧
    natBytes 5 = [53] ∧ ([49] : List Nat) ≠ [53] := by
  refine ⟨rfl, rfl, rfl, by decide⟩

/-- C4 amended: the watermark record is persisted per candidate uid but only
in the new-message branch and only when the uid exceeds the `highest` value
read at folder start: a run emits a watermark write for exactly the
candidates whose digest was initially absent and whose uid exceeds
`highest`, and afterwards the folder record holds the decimal bytes of the
last such candidate (or keeps its prior value when there is none).
Duplicate candidates never update the watermark record. -/
theorem c4_watermark_amended (H : List Nat → List Nat) (fB ns : List Nat)
    (highest f n : Nat) (msg : Nat → List Nat) (D : Nat → List Nat)
    (uids : List Nat) (st : EngineState)
    (hD : ∀ u ∈ uids, digestOf H f n (msg u) = some (D u))
    (hpw : List.Pairwise (fun a b => D a ≠ D b) uids)
    (hfB : ∀ u ∈ uids, D u ≠ fB) :
    (runUids H fB ns highest f n msg uids st).ok = true ∧
    dbmGet (runUids H fB ns highest f n msg uids st).state.index fB =
      (match (uids.filter fun u =>
          !dbmHas st.index (D u) && decide (highest < u)).getLast? with
       | none => dbmGet st.index fB
       | some u => some (natBytes u)) ∧
    (∀ u, Event.putWatermark u ∈ (runUids H fB ns highest f n msg uids st).trace ↔
      (u ∈ uids ∧ dbmHas st.index (D u) = false ∧ highest < u)) := by
  obtain ⟨mok, _, _, mwm, miff⟩ :=
    runUids_master H fB ns highest f n msg D uids st hD hpw hfB
  exact ⟨mok, mwm, miff⟩

/-- Witness for C4 amended: one duplicate candidate (uid 5, digest present,
watermark record untouched) behind a stored watermark of 1. -/
theorem c4_watermark_amended_witness :
    (runUids (fun b => b) [70] [78] 1 Mailserver.FIRSTCHUNK Mailserver.NEXTCHUNK
        demoMsg [5] ⟨[([70], [49]), ([98], [48])], []⟩).ok = true ∧
    dbmGet (runUids (fun b => b) [70] [78] 1 Mailserver.FIRSTCHUNK
        Mailserver.NEXTCHUNK demoMsg [5]
        ⟨[([70], [49]), ([98], [48])], []⟩).state.index [70] =
      (match (List.filter (fun u =>
          !dbmHas (⟨[([70], [49]), ([98], [48])], []⟩ : EngineState).index
            ((fun u => [98]) u) && decide (1 < u)) [5]).getLast? with
       | none => dbmGet (⟨[([70], [49]), ([98], [48])], []⟩ : EngineState).index [70]
       | some u => some (natBytes u)) ∧
    (∀ u, Event.putWatermark u ∈ (runUids (fun b => b) [70] [78] 1
        Mailserver.FIRSTCHUNK Mailserver.NEXTCHUNK demoMsg [5]
        ⟨[([70], [49]), ([98], [48])], []⟩).trace ↔
      (u ∈ [5] ∧
        dbmHas (⟨[([70], [49]), ([98], [48])], []⟩ : EngineState).index
          ((fun u => [98]) u) = false ∧ 1 < u)) :=
  c4_watermark_amended (fun b => b) [70] [78] 1 Mailserver.FIRSTCHUNK
    Mailserver.NEXTCHUNK demoMsg (fun u => [98]) [5]
    ⟨[([70], [49]), ([98], [48])], []⟩ (by decide) (by decide) (by decide)

-- ---------------------------------------------------------------------------
-- C6: full re-scan with incremental = false

/-- C6 counterexample: the claim says that with incremental false and a
stored watermark greater than 1 every message of the folder, including the
message with uid 1, is re-examined.  The candidate query filters strictly
greater than the start value 1, so uid 1 is excluded: on a folder holding
uids 1 and 2 (both digests already indexed, watermark "2") the run's
candidates are just [2] and the only event concerns uid 2 — uid 1 is never
re-examined. -/
theorem c6_rescan_counterexample :
    Mailserver.mails [1, 2] 1 = [2] ∧
    runFolder (fun b => b) false [70] [78] Mailserver.FIRSTCHUNK Mailserver.NEXTCHUNK
        demoMsg [1, 2] ⟨[([70], [50]), ([97], [48]), ([98], [48])], []⟩ =
      ⟨true, ⟨[([70], [50]), ([97], [48]), ([98], [48])], []⟩, [Event.skipDup 2]⟩ := by
  exact ⟨rfl, rfl⟩

/-- C6 amended: with incremental false the engine re-examines exactly the
candidates with uid strictly greater than 1 (uid 1 itself is excluded by the
strictly-greater filter); when all their digests are already present none is
re-archived, the state — including the watermark record, which thus keeps
its previous value — is unchanged, and the trace records one skip per
re-examined candidate. -/
theorem c6_rescan_amended (H : List Nat → List Nat) (fB ns : List Nat)
    (f n : Nat) (msg : Nat → List Nat) (D : Nat → List Nat) (uids : List Nat)
    (st : EngineState)
    (hD : ∀ u ∈ Mailserver.mails uids 1, digestOf H f n (msg u) = some (D u))
    (hdup : ∀ u ∈ Mailserver.mails uids 1, dbmHas st.index (D u) = true) :
    runFolder H false fB ns f n msg uids st =
      ⟨true, st, (Mailserver.mails uids 1).map Event.skipDup⟩ := by
  rw [runFolder_eq, if_neg (by simp)]
  exact runUids_dup H fB ns (watermarkOf st.index fB) f n msg D
    (Mailserver.mails uids 1) st hD hdup

/-- Witness for C6 amended on the two-message folder with watermark "2". -/
theorem c6_rescan_amended_witness :
    runFolder (fun b => b) false [70] [78] Mailserver.FIRSTCHUNK Mailserver.NEXTCHUNK
        demoMsg [1, 2] ⟨[([70], [50]), ([97], [48]), ([98], [48])], []⟩ =
      ⟨true, ⟨[([70], [50]), ([97], [48]), ([98], [48])], []⟩,
       (Mailserver.mails [1, 2] 1).map Event.skipDup⟩ :=
  c6_rescan_amended (fun b => b) [70] [78] Mailserver.FIRSTCHUNK
    Mailserver.NEXTCHUNK demoMsg (fun u => if u = 1 then [97] else [98]) [1, 2]
    ⟨[([70], [50]), ([97], [48]), ([98], [48])], []⟩ (by decide) (by decide)
